import Mathlib

/-!
Shallow embedding of the `convert-case-extras` Rust library (src/lib.rs).

Words are lists of characters; a pattern maps a list of words to a list of
words.  Rust's Unicode case mapping is modelled on the fragment actually
exercised by the specification: ASCII letters plus the character 'ß', whose
uppercase mapping is the two-character string "SS" (as in Rust's
`char::to_uppercase` / `str::to_uppercase`).  Every other character is
caseless and maps to itself under both case maps, exactly as in Rust.
-/

/-- Uppercase test, modelling Rust `char::is_uppercase` on the fragment. -/
def is_uppercase (c : Char) : Bool :=
  'A' ≤ c && c ≤ 'Z'

/-- Lowercase test, modelling Rust `char::is_lowercase` on the fragment:
ASCII lowercase letters and 'ß' are lowercase. -/
def is_lowercase (c : Char) : Bool :=
  ('a' ≤ c && c ≤ 'z') || c = 'ß'

/-- A character is cased (the spec's "alphabetic") when it is uppercase or
lowercase; this is the test `letter.is_uppercase() || letter.is_lowercase()`
used by the ALTERNATING pattern in src/lib.rs. -/
def is_cased (c : Char) : Bool :=
  is_uppercase c || is_lowercase c

/-- ASCII single-character uppercase map. -/
def ascii_to_upper (c : Char) : Char :=
  if 'a' ≤ c && c ≤ 'z' then Char.ofNat (c.toNat - 32) else c

/-- ASCII single-character lowercase map. -/
def ascii_to_lower (c : Char) : Char :=
  if 'A' ≤ c && c ≤ 'Z' then Char.ofNat (c.toNat + 32) else c

/-- Rust `char::to_uppercase` collected to a string: 'ß' maps to "SS", an
ASCII lowercase letter maps to its uppercase form, everything else maps to
itself. -/
def char_to_uppercase (c : Char) : List Char :=
  if c = 'ß' then ['S', 'S'] else [ascii_to_upper c]

/-- Rust `char::to_lowercase` collected to a string: on this fragment every
character has a single-character lowercase mapping ('ß' is already
lowercase and maps to itself). -/
def char_to_lowercase (c : Char) : List Char :=
  [ascii_to_lower c]

/-- Rust `str::to_uppercase`: uppercase every character and concatenate. -/
def str_to_uppercase (w : List Char) : List Char :=
  (w.map char_to_uppercase).flatten

/-- Rust `str::to_lowercase`. -/
def str_to_lowercase (w : List Char) : List Char :=
  (w.map char_to_lowercase).flatten

namespace pattern

/-- Embeds `toggle_word` from src/lib.rs: on a nonempty word, lowercase the
first character and uppercase (via `str::to_uppercase`) the remainder; the
empty word maps to the empty word. -/
def toggle_word (word : List Char) : List Char :=
  match word with
  | [] => []
  | c :: rest => char_to_lowercase c ++ str_to_uppercase rest

/-- Embeds `pattern::TOGGLE` from src/lib.rs: apply `toggle_word` to every
word independently. -/
def TOGGLE (words : List (List Char)) : List (List Char) :=
  words.map toggle_word

/-- One character step of `pattern::ALTERNATING` from src/lib.rs: a cased
character is emitted uppercase when the flag is set and lowercase otherwise,
and the flag is inverted; any other character is emitted unchanged and the
flag is kept. -/
def alternating_char (upper : Bool) (letter : Char) : Bool × List Char :=
  if is_uppercase letter || is_lowercase letter then
    if upper then (false, char_to_uppercase letter)
    else (true, char_to_lowercase letter)
  else (upper, [letter])

/-- Characters of one word under ALTERNATING, threading the flag. -/
def alternating_word (upper : Bool) : List Char → Bool × List Char
  | [] => (upper, [])
  | c :: rest =>
    let s := alternating_char upper c
    let t := alternating_word s.1 rest
    (t.1, s.2 ++ t.2)

/-- Word sequence under ALTERNATING: the flag resulting from one word is
passed on to the next word. -/
def alternating_words (upper : Bool) : List (List Char) → List (List Char)
  | [] => []
  | w :: ws =>
    let s := alternating_word upper w
    s.2 :: alternating_words s.1 ws

/-- Embeds `pattern::ALTERNATING` from src/lib.rs: the closure declares
`let mut upper = false` at every invocation, so the walk starts with the
flag clear ("lowercase next"). -/
def ALTERNATING (words : List (List Char)) : List (List Char) :=
  alternating_words false words

/-- One character step of `pattern::RANDOM` from src/lib.rs: the Boolean
`draw` is the outcome of `rng.gen::<f32>() > 0.5`; on `true` the character
is uppercased, otherwise lowercased, with no casedness test at all. -/
def random_char (draw : Bool) (letter : Char) : List Char :=
  if draw then char_to_uppercase letter else char_to_lowercase letter

/-- Characters of one word under RANDOM.  `rng` is the stream of Boolean
draw outcomes in program order and `i` the position of the next draw; one
draw is consumed per character. -/
def random_word (rng : Nat → Bool) (i : Nat) : List Char → Nat × List Char
  | [] => (i, [])
  | c :: rest =>
    let t := random_word rng (i + 1) rest
    (t.1, random_char (rng i) c ++ t.2)

/-- Word sequence under RANDOM, threading the draw position across words. -/
def random_words (rng : Nat → Bool) (i : Nat) : List (List Char) → List (List Char)
  | [] => []
  | w :: ws =>
    let t := random_word rng i w
    t.2 :: random_words rng t.1 ws

/-- Embeds `pattern::RANDOM` from src/lib.rs, with the random source made
explicit as the stream of comparison outcomes. -/
def RANDOM (rng : Nat → Bool) (words : List (List Char)) : List (List Char) :=
  random_words rng 0 words

end pattern

/-- The closed enumeration of the three pattern variants. -/
inductive PatternKind where
  | toggle : PatternKind
  | alternating : PatternKind
  | random : PatternKind
deriving DecidableEq

/-- Dispatch a pattern variant on a word sequence.  The random stream `rng`
is consulted only by the RANDOM variant. -/
def apply_pattern (p : PatternKind) (rng : Nat → Bool) (ws : List (List Char)) :
    List (List Char) :=
  match p with
  | .toggle => pattern.TOGGLE ws
  | .alternating => pattern.ALTERNATING ws
  | .random => pattern.RANDOM rng ws

/-- A case preset: boundaries, pattern, delimiter (`Case::Custom` in
src/lib.rs, with `Boundary::Space` modelled as the space character). -/
structure CasePreset where
  boundaries : List Char
  pattern : PatternKind
  delim : List Char

namespace case

/-- Embeds `case::TOGGLE` from src/lib.rs. -/
def TOGGLE : CasePreset :=
  ⟨[' '], PatternKind.toggle, [' ']⟩

/-- Embeds `case::ALTERNATING` from src/lib.rs. -/
def ALTERNATING : CasePreset :=
  ⟨[' '], PatternKind.alternating, [' ']⟩

/-- Embeds `case::RANDOM` from src/lib.rs (the "random" feature build). -/
def RANDOM : CasePreset :=
  ⟨[' '], PatternKind.random, [' ']⟩

end case

/-- Modelled from the spec: the host entry point `convert_case::Casing::to_case`
is not part of this repository.  Per the spec's external-interface section it
tokenizes the input, applies the preset's pattern and rejoins with the
preset's delimiter; per the spec's testable property on "test_toggle" the
host's tokenizer treats the underscore (and hyphen) as a word boundary in
addition to the space, independently of the boundaries the preset declares.
This predicate is the host's default word-boundary test. -/
def default_boundary (c : Char) : Bool :=
  c = ' ' || c = '_' || c = '-'

/-- Modelled from the spec: the host's tokenizer, splitting the input on the
default boundaries and discarding empty segments. -/
def split_words (s : List Char) : List (List Char) :=
  (s.splitOnP default_boundary).filter (fun w => !w.isEmpty)

/-- Modelled from the spec: the host's `to_case` entry point, so that
`to_case rng s preset` is `s.to_case(preset)` with random stream `rng`. -/
def to_case (rng : Nat → Bool) (s : List Char) (preset : CasePreset) : List Char :=
  List.intercalate preset.delim (apply_pattern preset.pattern rng (split_words s))

/-- A character whose Rust uppercase mapping is a single character: every
character of the fragment except 'ß'. -/
def single_upper (c : Char) : Bool :=
  (char_to_uppercase c).length == 1

/-- Relates an input character to an output character that agrees with it up
to letter case: the output is the input itself, or its collected uppercase or
lowercase mapping consists exactly of the output; a caseless input is left
exactly unchanged. -/
def char_preserved (c d : Char) : Prop :=
  (is_cased c = false → d = c) ∧
  (d = c ∨ char_to_uppercase c = [d] ∨ char_to_lowercase c = [d])

/-! Helper lemmas about the character-level case maps. -/

theorem is_uppercase_false_of_not_cased {c : Char} (h : is_cased c = false) :
    is_uppercase c = false := by
  unfold is_cased at h
  exact (Bool.or_eq_false_iff.mp h).1

theorem is_lowercase_false_of_not_cased {c : Char} (h : is_cased c = false) :
    is_lowercase c = false := by
  unfold is_cased at h
  exact (Bool.or_eq_false_iff.mp h).2

theorem ascii_to_upper_id {c : Char} (h : is_lowercase c = false) :
    ascii_to_upper c = c := by
  unfold is_lowercase at h
  have h1 := (Bool.or_eq_false_iff.mp h).1
  unfold ascii_to_upper
  simp [h1]

theorem ascii_to_lower_id {c : Char} (h : is_uppercase c = false) :
    ascii_to_lower c = c := by
  unfold is_uppercase at h
  unfold ascii_to_lower
  simp [h]

theorem ne_eszett_of_not_lowercase {c : Char} (h : is_lowercase c = false) :
    ¬ c = 'ß' := by
  unfold is_lowercase at h
  have h2 := (Bool.or_eq_false_iff.mp h).2
  simpa using h2

theorem char_to_uppercase_id {c : Char} (h : is_cased c = false) :
    char_to_uppercase c = [c] := by
  have hl := is_lowercase_false_of_not_cased h
  unfold char_to_uppercase
  rw [if_neg (ne_eszett_of_not_lowercase hl), ascii_to_upper_id hl]

theorem char_to_lowercase_id {c : Char} (h : is_cased c = false) :
    char_to_lowercase c = [c] := by
  unfold char_to_lowercase
  rw [ascii_to_lower_id (is_uppercase_false_of_not_cased h)]

theorem single_upper_eq {c : Char} (h : single_upper c = true) :
    char_to_uppercase c = [ascii_to_upper c] := by
  unfold single_upper char_to_uppercase at *
  by_cases hc : c = 'ß'
  · subst hc
    simp at h
  · rw [if_neg hc]

theorem char_preserved_refl (c : Char) : char_preserved c c :=
  ⟨fun _ => rfl, Or.inl rfl⟩

theorem char_preserved_lower (c : Char) : char_preserved c (ascii_to_lower c) := by
  refine ⟨fun h => ascii_to_lower_id (is_uppercase_false_of_not_cased h), ?_⟩
  exact Or.inr (Or.inr rfl)

theorem char_preserved_upper {c : Char} (h : single_upper c = true) :
    char_preserved c (ascii_to_upper c) := by
  refine ⟨fun hc => ascii_to_upper_id (is_lowercase_false_of_not_cased hc), ?_⟩
  exact Or.inr (Or.inl (single_upper_eq h))

/-! Unfolding equations for the recursive pattern functions. -/

theorem alternating_word_cons (u : Bool) (c : Char) (rest : List Char) :
    pattern.alternating_word u (c :: rest) =
      ((pattern.alternating_word (pattern.alternating_char u c).1 rest).1,
        (pattern.alternating_char u c).2 ++
          (pattern.alternating_word (pattern.alternating_char u c).1 rest).2) :=
  rfl

theorem alternating_words_cons (u : Bool) (w : List Char) (ws : List (List Char)) :
    pattern.alternating_words u (w :: ws) =
      (pattern.alternating_word u w).2 ::
        pattern.alternating_words (pattern.alternating_word u w).1 ws :=
  rfl

theorem random_word_cons (rng : Nat → Bool) (i : Nat) (c : Char) (rest : List Char) :
    pattern.random_word rng i (c :: rest) =
      ((pattern.random_word rng (i + 1) rest).1,
        pattern.random_char (rng i) c ++ (pattern.random_word rng (i + 1) rest).2) :=
  rfl

theorem random_words_cons (rng : Nat → Bool) (i : Nat) (w : List Char)
    (ws : List (List Char)) :
    pattern.random_words rng i (w :: ws) =
      (pattern.random_word rng i w).2 ::
        pattern.random_words rng (pattern.random_word rng i w).1 ws :=
  rfl

/-! Character-shape preservation, per pattern. -/

theorem alternating_char_step (u : Bool) (c : Char) (h : single_upper c = true) :
    ∃ d, (pattern.alternating_char u c).2 = [d] ∧ char_preserved c d := by
  unfold pattern.alternating_char
  by_cases hc : (is_uppercase c || is_lowercase c) = true
  · rw [if_pos hc]
    cases u
    · exact ⟨ascii_to_lower c, rfl, char_preserved_lower c⟩
    · exact ⟨ascii_to_upper c, single_upper_eq h, char_preserved_upper h⟩
  · rw [if_neg hc]
    exact ⟨c, rfl, char_preserved_refl c⟩

theorem random_char_step (d : Bool) (c : Char) (h : single_upper c = true) :
    ∃ e, pattern.random_char d c = [e] ∧ char_preserved c e := by
  cases d
  · exact ⟨ascii_to_lower c, rfl, char_preserved_lower c⟩
  · exact ⟨ascii_to_upper c, single_upper_eq h, char_preserved_upper h⟩

theorem str_to_uppercase_forall2 (w : List Char) (h : ∀ c ∈ w, single_upper c = true) :
    List.Forall₂ char_preserved w (str_to_uppercase w) := by
  induction w with
  | nil => exact List.Forall₂.nil
  | cons c rest ih =>
    have hc := single_upper_eq (h c (List.mem_cons_self c rest))
    have hrw : str_to_uppercase (c :: rest) = ascii_to_upper c :: str_to_uppercase rest := by
      simp [str_to_uppercase, hc]
    rw [hrw]
    exact List.Forall₂.cons (char_preserved_upper (h c (List.mem_cons_self c rest)))
      (ih fun d hd => h d (List.mem_cons_of_mem c hd))

theorem toggle_word_forall2 (w : List Char) (h : ∀ c ∈ w, single_upper c = true) :
    List.Forall₂ char_preserved w (pattern.toggle_word w) := by
  cases w with
  | nil => exact List.Forall₂.nil
  | cons c rest =>
    show List.Forall₂ char_preserved (c :: rest)
      (ascii_to_lower c :: str_to_uppercase rest)
    exact List.Forall₂.cons (char_preserved_lower c)
      (str_to_uppercase_forall2 rest fun d hd => h d (List.mem_cons_of_mem c hd))

theorem toggle_forall2 (ws : List (List Char))
    (h : ∀ w ∈ ws, ∀ c ∈ w, single_upper c = true) :
    List.Forall₂ (List.Forall₂ char_preserved) ws (pattern.TOGGLE ws) := by
  induction ws with
  | nil => exact List.Forall₂.nil
  | cons w rest ih =>
    exact List.Forall₂.cons (toggle_word_forall2 w (h w (List.mem_cons_self w rest)))
      (ih fun v hv => h v (List.mem_cons_of_mem w hv))

theorem alternating_word_forall2 (w : List Char) :
    ∀ u, (∀ c ∈ w, single_upper c = true) →
      List.Forall₂ char_preserved w (pattern.alternating_word u w).2 := by
  induction w with
  | nil => exact fun u _ => List.Forall₂.nil
  | cons c rest ih =>
    intro u h
    obtain ⟨d, hd, hp⟩ := alternating_char_step u c (h c (List.mem_cons_self c rest))
    rw [alternating_word_cons, hd]
    exact List.Forall₂.cons hp
      (ih (pattern.alternating_char u c).1 fun e he => h e (List.mem_cons_of_mem c he))

theorem alternating_words_forall2 (ws : List (List Char)) :
    ∀ u, (∀ w ∈ ws, ∀ c ∈ w, single_upper c = true) →
      List.Forall₂ (List.Forall₂ char_preserved) ws (pattern.alternating_words u ws) := by
  induction ws with
  | nil => exact fun u _ => List.Forall₂.nil
  | cons w rest ih =>
    intro u h
    rw [alternating_words_cons]
    exact List.Forall₂.cons (alternating_word_forall2 w u (h w (List.mem_cons_self w rest)))
      (ih (pattern.alternating_word u w).1 fun v hv => h v (List.mem_cons_of_mem w hv))

theorem random_word_forall2 (rng : Nat → Bool) (w : List Char) :
    ∀ i, (∀ c ∈ w, single_upper c = true) →
      List.Forall₂ char_preserved w (pattern.random_word rng i w).2 := by
  induction w with
  | nil => exact fun i _ => List.Forall₂.nil
  | cons c rest ih =>
    intro i h
    obtain ⟨e, he, hp⟩ := random_char_step (rng i) c (h c (List.mem_cons_self c rest))
    rw [random_word_cons, he]
    exact List.Forall₂.cons hp (ih (i + 1) fun d hd => h d (List.mem_cons_of_mem c hd))

theorem random_words_forall2 (rng : Nat → Bool) (ws : List (List Char)) :
    ∀ i, (∀ w ∈ ws, ∀ c ∈ w, single_upper c = true) →
      List.Forall₂ (List.Forall₂ char_preserved) ws (pattern.random_words rng i ws) := by
  induction ws with
  | nil => exact fun i _ => List.Forall₂.nil
  | cons w rest ih =>
    intro i h
    rw [random_words_cons]
    exact List.Forall₂.cons (random_word_forall2 rng w i (h w (List.mem_cons_self w rest)))
      (ih (pattern.random_word rng i w).1 fun v hv => h v (List.mem_cons_of_mem w hv))

/-! Word-count preservation, unconditional. -/

theorem alternating_words_length (ws : List (List Char)) :
    ∀ u, (pattern.alternating_words u ws).length = ws.length := by
  induction ws with
  | nil => exact fun _ => rfl
  | cons w rest ih =>
    intro u
    rw [alternating_words_cons]
    simp [ih]

theorem random_words_length (rng : Nat → Bool) (ws : List (List Char)) :
    ∀ i, (pattern.random_words rng i ws).length = ws.length := by
  induction ws with
  | nil => exact fun _ => rfl
  | cons w rest ih =>
    intro i
    rw [random_words_cons]
    simp [ih]

theorem apply_pattern_length (p : PatternKind) (rng : Nat → Bool)
    (ws : List (List Char)) : (apply_pattern p rng ws).length = ws.length := by
  cases p with
  | toggle => exact List.length_map ws pattern.toggle_word
  | alternating => exact alternating_words_length ws false
  | random => exact random_words_length rng ws 0

/-! Passthrough on caseless input. -/

theorem str_to_uppercase_id (w : List Char) (h : ∀ c ∈ w, is_cased c = false) :
    str_to_uppercase w = w := by
  induction w with
  | nil => rfl
  | cons c rest ih =>
    have hc := char_to_uppercase_id (h c (List.mem_cons_self c rest))
    simp [str_to_uppercase, hc]
    simpa [str_to_uppercase] using ih fun d hd => h d (List.mem_cons_of_mem c hd)

theorem toggle_word_id (w : List Char) (h : ∀ c ∈ w, is_cased c = false) :
    pattern.toggle_word w = w := by
  cases w with
  | nil => rfl
  | cons c rest =>
    show ascii_to_lower c :: str_to_uppercase rest = c :: rest
    rw [ascii_to_lower_id (is_uppercase_false_of_not_cased (h c (List.mem_cons_self c rest)))]
    rw [str_to_uppercase_id rest fun d hd => h d (List.mem_cons_of_mem c hd)]

theorem alternating_char_id (u : Bool) (c : Char) (h : is_cased c = false) :
    pattern.alternating_char u c = (u, [c]) := by
  unfold is_cased at h
  unfold pattern.alternating_char
  rw [if_neg]
  simp [h]

theorem alternating_word_id (w : List Char) :
    ∀ u, (∀ c ∈ w, is_cased c = false) → pattern.alternating_word u w = (u, w) := by
  induction w with
  | nil => exact fun _ _ => rfl
  | cons c rest ih =>
    intro u h
    rw [alternating_word_cons, alternating_char_id u c (h c (List.mem_cons_self c rest))]
    simp [ih u fun d hd => h d (List.mem_cons_of_mem c hd),
      alternating_char_id u c (h c (List.mem_cons_self c rest))]

theorem alternating_words_id (ws : List (List Char)) :
    ∀ u, (∀ w ∈ ws, ∀ c ∈ w, is_cased c = false) →
      pattern.alternating_words u ws = ws := by
  induction ws with
  | nil => exact fun _ _ => rfl
  | cons w rest ih =>
    intro u h
    rw [alternating_words_cons, alternating_word_id w u (h w (List.mem_cons_self w rest))]
    simp [ih u fun v hv => h v (List.mem_cons_of_mem w hv)]

theorem random_char_id (d : Bool) (c : Char) (h : is_cased c = false) :
    pattern.random_char d c = [c] := by
  cases d
  · exact char_to_lowercase_id h
  · exact char_to_uppercase_id h

theorem random_word_fst (rng : Nat → Bool) (w : List Char) :
    ∀ i, (pattern.random_word rng i w).1 = i + w.length := by
  induction w with
  | nil => exact fun i => rfl
  | cons c rest ih =>
    intro i
    rw [random_word_cons]
    simp [ih (i + 1)]
    omega

theorem random_word_id (rng : Nat → Bool) (w : List Char) :
    ∀ i, (∀ c ∈ w, is_cased c = false) →
      (pattern.random_word rng i w).2 = w := by
  induction w with
  | nil => exact fun _ _ => rfl
  | cons c rest ih =>
    intro i h
    rw [random_word_cons]
    simp [random_char_id (rng i) c (h c (List.mem_cons_self c rest)),
      ih (i + 1) fun d hd => h d (List.mem_cons_of_mem c hd)]

theorem random_words_id (rng : Nat → Bool) (ws : List (List Char)) :
    ∀ i, (∀ w ∈ ws, ∀ c ∈ w, is_cased c = false) →
      pattern.random_words rng i ws = ws := by
  induction ws with
  | nil => exact fun _ _ => rfl
  | cons w rest ih =>
    intro i h
    rw [random_words_cons]
    simp [random_word_id rng w i (h w (List.mem_cons_self w rest)),
      ih (pattern.random_word rng i w).1 fun v hv => h v (List.mem_cons_of_mem w hv)]

theorem toggle_id (ws : List (List Char))
    (h : ∀ w ∈ ws, ∀ c ∈ w, is_cased c = false) : pattern.TOGGLE ws = ws := by
  induction ws with
  | nil => rfl
  | cons w rest ih =>
    show pattern.toggle_word w :: pattern.TOGGLE rest = w :: rest
    rw [toggle_word_id w (h w (List.mem_cons_self w rest)),
      ih fun v hv => h v (List.mem_cons_of_mem w hv)]

/-! Claim theorems. -/

/-- C1 (counterexample): the claim that every Pattern Transformer preserves
the number of characters of each word fails on the code: TOGGLE on the
two-character word "aß" yields the three-character word "aSS", because the
remainder of the word is uppercased with the full Unicode mapping under which
'ß' maps to "SS". -/
theorem toggle_changes_char_count :
    apply_pattern PatternKind.toggle (fun _ => true) [['a', 'ß']] = [['a', 'S', 'S']] ∧
    ¬ (['a', 'S', 'S'] : List Char).length = (['a', 'ß'] : List Char).length := by
  constructor
  · rfl
  · decide

/-- C1 (amended): every Pattern Transformer preserves the number of words
unconditionally (first conjunct, with no hypothesis); when additionally every
character of the input has a single-character uppercase mapping (all of
ASCII), it also preserves the number of characters of each word, leaves every
non-alphabetic character unchanged at its position, and changes alphabetic
characters only in their casing. -/
theorem pattern_preserves_shape (p : PatternKind) (rng : Nat → Bool)
    (ws : List (List Char)) :
    (apply_pattern p rng ws).length = ws.length ∧
    ((∀ w ∈ ws, ∀ c ∈ w, single_upper c = true) →
      List.Forall₂ (fun w v => w.length = v.length) ws (apply_pattern p rng ws) ∧
      List.Forall₂ (List.Forall₂ char_preserved) ws (apply_pattern p rng ws)) := by
  refine ⟨apply_pattern_length p rng ws, fun h => ?_⟩
  have main : List.Forall₂ (List.Forall₂ char_preserved) ws (apply_pattern p rng ws) := by
    cases p with
    | toggle => exact toggle_forall2 ws h
    | alternating => exact alternating_words_forall2 ws false h
    | random => exact random_words_forall2 rng ws 0 h
  exact ⟨main.imp fun w v hwv => hwv.length_eq, main⟩

/-- C1 (witness): the unconditional word-count conjunct instantiated on an
input containing 'ß', and the conditional per-character conjuncts on an
all-ASCII input, with the hypothesis discharged by computation. -/
theorem pattern_preserves_shape_witness :
    (apply_pattern PatternKind.toggle (fun _ => true) [['a', 'ß']]).length
        = ([['a', 'ß']] : List (List Char)).length ∧
    List.Forall₂ (fun w v => w.length = v.length) [['A', 'b'], ['c', '!']]
      (apply_pattern PatternKind.alternating (fun _ => true) [['A', 'b'], ['c', '!']]) ∧
    List.Forall₂ (List.Forall₂ char_preserved) [['A', 'b'], ['c', '!']]
      (apply_pattern PatternKind.alternating (fun _ => true) [['A', 'b'], ['c', '!']]) :=
  ⟨(pattern_preserves_shape PatternKind.toggle (fun _ => true) [['a', 'ß']]).1,
    ((pattern_preserves_shape PatternKind.alternating (fun _ => true)
      [['A', 'b'], ['c', '!']]).2 (by decide)).1,
    ((pattern_preserves_shape PatternKind.alternating (fun _ => true)
      [['A', 'b'], ['c', '!']]).2 (by decide)).2⟩

/-- C2: `toggle_word` maps the empty word to the empty word, lowercases the
first character of a nonempty word (a no-op when that character is not
alphabetic) and uppercases the remaining characters; a one-character word
becomes its lowercase form; the TOGGLE pattern applies `toggle_word` to each
word independently, with no cross-word state; and the concrete examples
`toggle_word "Case" = "cASE"` and `toggle_word "" = ""` hold. -/
theorem toggle_word_contract :
    pattern.toggle_word [] = [] ∧
    (∀ c rest, pattern.toggle_word (c :: rest) = char_to_lowercase c ++ str_to_uppercase rest) ∧
    (∀ c rest, is_cased c = false →
      pattern.toggle_word (c :: rest) = c :: str_to_uppercase rest) ∧
    (∀ c, pattern.toggle_word [c] = [ascii_to_lower c]) ∧
    (∀ ws, pattern.TOGGLE ws = ws.map pattern.toggle_word) ∧
    pattern.toggle_word "Case".toList = "cASE".toList ∧
    pattern.toggle_word "".toList = "".toList := by
  refine ⟨rfl, fun c rest => rfl, ?_, fun c => rfl, fun ws => rfl, by decide, rfl⟩
  intro c rest h
  show ascii_to_lower c :: str_to_uppercase rest = c :: str_to_uppercase rest
  rw [ascii_to_lower_id (is_uppercase_false_of_not_cased h)]

/-- C2 (witness). -/
theorem toggle_word_contract_witness :
    pattern.toggle_word ('1' :: 'a' :: 'b' :: []) = '1' :: str_to_uppercase ('a' :: 'b' :: []) :=
  toggle_word_contract.2.2.1 '1' ('a' :: 'b' :: []) (by decide)

/-- C3: the ALTERNATING pattern starts each invocation with the flag clear
("lowercase next"); a cased character is emitted in the case the flag
indicates and the flag is inverted; a non-alphabetic character is emitted
unchanged and the flag is kept; the flag resulting from one word is carried
into the next word; and the two concrete examples from the spec hold. -/
theorem alternating_contract :
    (∀ ws, pattern.ALTERNATING ws = pattern.alternating_words false ws) ∧
    (∀ u c, is_cased c = true → pattern.alternating_char u c =
      (!u, if u then char_to_uppercase c else char_to_lowercase c)) ∧
    (∀ u c, is_cased c = false → pattern.alternating_char u c = (u, [c])) ∧
    (∀ u w ws, pattern.alternating_words u (w :: ws) =
      (pattern.alternating_word u w).2 ::
        pattern.alternating_words (pattern.alternating_word u w).1 ws) ∧
    pattern.ALTERNATING ["Case".toList, "CONVERSION".toList, "library".toList]
      = ["cAsE".toList, "cOnVeRsIoN".toList, "lIbRaRy".toList] ∧
    pattern.ALTERNATING ["Another".toList, "Example".toList]
      = ["aNoThEr".toList, "ExAmPlE".toList] := by
  refine ⟨fun ws => rfl, ?_, alternating_char_id, alternating_words_cons, by decide, by decide⟩
  intro u c h
  unfold is_cased at h
  unfold pattern.alternating_char
  rw [if_pos h]
  cases u <;> rfl

/-- C3 (witness). -/
theorem alternating_contract_witness :
    pattern.alternating_char false 'C' = (!false, if false then char_to_uppercase 'C' else char_to_lowercase 'C') :=
  alternating_contract.2.1 false 'C' (by decide)

/-- C4: every pattern is a total function of its input; the empty word
sequence maps to the empty word sequence, and a word sequence containing no
alphabetic character passes through completely unchanged (which covers empty
words as well). -/
theorem pattern_total_passthrough :
    (∀ p rng, apply_pattern p rng [] = []) ∧
    (∀ p rng ws, (∀ w ∈ ws, ∀ c ∈ w, is_cased c = false) →
      apply_pattern p rng ws = ws) := by
  constructor
  · intro p rng
    cases p <;> rfl
  · intro p rng ws h
    cases p with
    | toggle => exact toggle_id ws h
    | alternating => exact alternating_words_id ws false h
    | random => exact random_words_id rng ws 0 h

/-- C4 (witness). -/
theorem pattern_total_passthrough_witness :
    apply_pattern PatternKind.random (fun _ => true) [['1', '2'], [], ['_']]
      = [['1', '2'], [], ['_']] :=
  pattern_total_passthrough.2 PatternKind.random (fun _ => true)
    [['1', '2'], [], ['_']] (by decide)

/-- C6: converting "My variable NAME" through the host entry point with the
TOGGLE preset yields "mY vARIABLE nAME", and with the ALTERNATING preset
yields "mY vArIaBlE nAmE", for every random stream (neither preset consults
it). -/
theorem to_case_my_variable_name :
    (∀ rng, to_case rng "My variable NAME".toList case.TOGGLE = "mY vARIABLE nAME".toList) ∧
    (∀ rng, to_case rng "My variable NAME".toList case.ALTERNATING = "mY vArIaBlE nAmE".toList) :=
  ⟨fun _ => rfl, fun _ => rfl⟩

/-- C7: the TOGGLE preset declares only the space character as its boundary,
yet converting "test_toggle" through the host entry point yields
"tEST tOGGLE": the host's tokenizer treats the underscore as a word boundary
and the words are rejoined with the preset's space delimiter. -/
theorem to_case_test_toggle :
    case.TOGGLE.boundaries = [' '] ∧
    ∀ rng, to_case rng "test_toggle".toList case.TOGGLE = "tEST tOGGLE".toList :=
  ⟨rfl, fun _ => rfl⟩

/-- C8: the TOGGLE and ALTERNATING patterns never consult the random stream,
so two invocations on the same input always agree; ALTERNATING re-initializes
its flag to "lowercase next" on every call; and the RANDOM pattern does
depend on the stream, exhibited by two streams giving different outputs. -/
theorem deterministic_except_random :
    (∀ p, ¬ p = PatternKind.random →
      ∀ rng₁ rng₂ ws, apply_pattern p rng₁ ws = apply_pattern p rng₂ ws) ∧
    (∀ ws, pattern.ALTERNATING ws = pattern.alternating_words false ws) ∧
    (∃ rng₁ rng₂ ws,
      ¬ apply_pattern PatternKind.random rng₁ ws = apply_pattern PatternKind.random rng₂ ws) := by
  refine ⟨?_, fun ws => rfl, fun _ => false, fun _ => true, [['a']], by decide⟩
  intro p hp rng₁ rng₂ ws
  cases p with
  | toggle => rfl
  | alternating => rfl
  | random => exact absurd rfl hp

/-- C8 (witness). -/
theorem deterministic_except_random_witness :
    apply_pattern PatternKind.toggle (fun _ => false) [['a']]
      = apply_pattern PatternKind.toggle (fun _ => true) [['a']] :=
  deterministic_except_random.1 PatternKind.toggle (by decide)
    (fun _ => false) (fun _ => true) [['a']]

/-- C9: the RANDOM pattern consumes exactly one draw per character: after a
word of n characters starting at stream position i the position is i + n,
whether or not the characters are alphabetic; a non-alphabetic character is
emitted unchanged under either draw outcome; and the stream position handed
to the next word is advanced by the full length of the previous word. -/
theorem random_draws_per_char :
    (∀ rng i w, (pattern.random_word rng i w).1 = i + w.length) ∧
    (∀ d c, is_cased c = false → pattern.random_char d c = [c]) ∧
    (∀ rng i w ws, pattern.random_words rng i (w :: ws) =
      (pattern.random_word rng i w).2 :: pattern.random_words rng (i + w.length) ws) := by
  refine ⟨fun rng i w => random_word_fst rng w i, random_char_id, ?_⟩
  intro rng i w ws
  rw [random_words_cons, random_word_fst rng w i]

/-- C9 (witness). -/
theorem random_draws_per_char_witness :
    pattern.random_char true '_' = ['_'] :=
  random_draws_per_char.2.1 true '_' (by decide)

/-- C10: TOGGLE can change the character count of a word: on the
two-character word "aß" it returns the three-character word "aSS", because
the remainder of the word is uppercased with the full Unicode case mapping,
under which 'ß' maps to the two characters "SS". -/
theorem toggle_word_eszett :
    pattern.toggle_word "aß".toList = "aSS".toList ∧
    "aß".toList.length = 2 ∧
    (pattern.toggle_word "aß".toList).length = 3 := by
  refine ⟨by decide, by decide, by decide⟩
